import Mathlib

/-!
Verification of the housing-notice analyzer (`src/app.py`).

The file shallowly embeds the extraction pipeline of `app.py`: Python
strings become `String`, `None` cells become `""` (both are falsy in the
source), tables become `List (List String)` with missing cells read as `""`
(pandas `fillna("")` padding), Python dicts become insertion-ordered
association lists, and the regular expressions the source uses are embedded
as explicit matchers with the same leftmost / greedy-with-backtracking
semantics.  Fallible operations (`int(...)`, `strptime`, `[0]` indexing)
return `Option`.
-/

/-! ## String utilities mirroring the Python primitives -/

/-- Whitespace in the sense of Python's `\s` / `str.strip()` for the
character set appearing in these documents. -/
def isWS (c : Char) : Bool :=
  c = ' ' || c = '\t' || c = '\n' || c = '\r'

/-- `needle` occurs at the head of `hay`. -/
def listPrefixOf : List Char → List Char → Bool
  | [], _ => true
  | _ :: _, [] => false
  | a :: as, b :: bs => a == b && listPrefixOf as bs

/-- `needle` occurs somewhere inside `hay` (Python's `needle in hay`). -/
def listInfixOf (needle : List Char) : List Char → Bool
  | [] => needle.isEmpty
  | c :: rest => listPrefixOf needle (c :: rest) || listInfixOf needle rest

/-- Python's `needle in hay` on strings. -/
def strContains (hay needle : String) : Bool :=
  listInfixOf needle.data hay.data

/-- Python's `hay.endswith needle`. -/
def strEndsWith (hay needle : String) : Bool :=
  listPrefixOf needle.data.reverse hay.data.reverse

/-- Python's `s.replace(pat, repl)`: every non-overlapping occurrence,
left to right.  Fuel-driven structural recursion; every step consumes at
least one character, so `l.length` fuel always suffices. -/
def replaceAllAux (pat repl : List Char) : Nat → List Char → List Char
  | 0, l => l
  | _ + 1, [] => []
  | fuel + 1, c :: rest =>
    if pat.length ≠ 0 ∧ listPrefixOf pat (c :: rest) then
      repl ++ replaceAllAux pat repl fuel (rest.drop (pat.length - 1))
    else
      c :: replaceAllAux pat repl fuel rest

/-- Python's `s.replace(pat, repl)` on character lists. -/
def replaceAll (pat repl l : List Char) : List Char :=
  replaceAllAux pat repl l.length l

/-- Python's `s.replace(pat, repl)` on strings. -/
def pyReplace (s pat repl : String) : String :=
  ⟨replaceAll pat.data repl.data s.data⟩

/-- Python's `s.replace(" ", "")`. -/
def removeSpaces (s : String) : String :=
  ⟨s.data.filter (fun c => c ≠ ' ')⟩

/-- Python's `s.replace(" ", "").replace("\n", "")`, used to normalize
header cells. -/
def stripSpaceNL (s : String) : String :=
  ⟨s.data.filter (fun c => c ≠ ' ' ∧ c ≠ '\n')⟩

/-- Python's `s.strip()` (whitespace from both ends). -/
def pyStrip (s : String) : String :=
  ⟨((s.data.dropWhile isWS).reverse.dropWhile isWS).reverse⟩

/-- Python's `s.strip(chars)` for an explicit character set. -/
def pyStripChars (s : String) (cs : List Char) : String :=
  ⟨((s.data.dropWhile (cs.contains ·)).reverse.dropWhile (cs.contains ·)).reverse⟩

/-- `re.sub(r"\s+", " ", s)`: each whitespace run becomes one space.
Fuel-driven structural recursion; `l.length` fuel always suffices. -/
def collapseWSAux : Nat → List Char → List Char
  | 0, l => l
  | _ + 1, [] => []
  | fuel + 1, c :: rest =>
    if isWS c then ' ' :: collapseWSAux fuel (rest.dropWhile isWS)
    else c :: collapseWSAux fuel rest

/-- `re.sub(r"\s+", " ", s)` on character lists. -/
def collapseWSList (l : List Char) : List Char :=
  collapseWSAux l.length l

/-- `re.sub(r"\s+", " ", s)` on strings. -/
def collapseWS (s : String) : String :=
  ⟨collapseWSList s.data⟩

/-- Split a character list at every occurrence of `c`. -/
def splitOnChar (c : Char) : List Char → List (List Char)
  | [] => [[]]
  | a :: rest =>
    match splitOnChar c rest with
    | [] => [[]]
    | g :: gs => if a = c then [] :: g :: gs else (a :: g) :: gs

/-- Python's `s.splitlines()` for newline-separated text: split on `'\n'`,
with no empty trailing entry when the text ends in a newline, and no entry
at all for the empty string. -/
def pySplitlines (s : String) : List String :=
  if s.data = [] then []
  else
    let gs := splitOnChar '\n' s.data
    let gs := if s.data.getLast? = some '\n' then gs.dropLast else gs
    gs.map fun l => ⟨l⟩

/-- `re.sub(r"[^0-9]", "", s)`: keep only ASCII digits. -/
def digitsOnly (s : String) : String :=
  ⟨s.data.filter Char.isDigit⟩

/-- Decimal value of a digit list. -/
def natOfDigits (l : List Char) : Nat :=
  l.foldl (fun n c => 10 * n + (c.toNat - '0'.toNat)) 0

/-- Python's `int(s)` restricted to the shapes this program feeds it:
defined (`some`) exactly on nonempty all-digit strings, `none` standing for
the `ValueError` any other content would raise. -/
def pyInt (s : String) : Option Nat :=
  if s.data ≠ [] ∧ s.data.all Char.isDigit then some (natOfDigits s.data) else none

/-! ## `looks_like_company` (app.py:131-150) -/

/-- `COMPANY_HINT_KEYWORDS` (app.py:124-128). -/
def COMPANY_HINT_KEYWORDS : List String :=
  ["조합", "건설", "주식회사", "㈜", "(주)", "개발",
   "디앤씨", "디엔씨", "산업", "엔지니어링",
   "홀딩스", "투자", "공사", "기업", "주택도시"]

/-- The `bad_endings` list of `looks_like_company`. -/
def bad_endings : List String :=
  ["기준", "적용기준", "적용 기준", "산정기준"]

/-- The `strong_keywords` list of `looks_like_company`. -/
def strong_keywords : List String :=
  ["조합", "건설", "주식회사", "㈜", "(주)", "개발", "공사", "기업"]

/-- The administrative-division tokens tested by `looks_like_company`. -/
def admin_tokens : List String :=
  ["광역시", "특별시", "시 ", "군 ", "구 ", "동 ", "로 ", "길 "]

/-- `looks_like_company` (app.py:131-150).  Note the source strips the
name before the 30-character length check. -/
def looks_like_company (name : String) : Bool :=
  if name = "" then false
  else
    let n := pyStrip name
    if n.length > 30 then false
    else if bad_endings.any (fun be => strEndsWith n be) then false
    else if strContains n "기간" && !(strong_keywords.any (fun k => strContains n k)) then
      false
    else if admin_tokens.any (fun w => strContains n w)
        && !(COMPANY_HINT_KEYWORDS.any (fun k => strContains n k)) then
      false
    else COMPANY_HINT_KEYWORDS.any (fun k => strContains n k)

/-! ## `parse_complex_name` (app.py:32-45) -/

/-- The loop of `parse_complex_name`: the first line containing the
subscription-notice marker, with the marker removed and the remainder
stripped. -/
def complexNameRaw : List String → Option String
  | [] => none
  | line :: rest =>
    let l := pyStrip line
    if strContains l "입주자모집공고" then
      some (pyStrip (pyReplace l "입주자모집공고" ""))
    else complexNameRaw rest

/-- `parse_complex_name` (app.py:32-45). -/
def parse_complex_name (text : String) : Option String :=
  match complexNameRaw (pySplitlines text) with
  | none => none
  | some raw =>
    if raw = "" then none
    else
      let name := pyStripChars (collapseWS raw) [' ', ',', '·', '-']
      if name = "" then none else some name

/-! ## The date pattern `\d{4}\.\d{1,2}\.\d{1,2}` (app.py:584) -/

/-- Match `\d{1,2}\.` at the head of the list (greedy, backtracking to one
digit when two digits are not followed by a dot); returns the digits and
the rest after the dot. -/
def matchMonthDot (l : List Char) : Option (List Char × List Char) :=
  match l with
  | a :: b :: c :: rest =>
    if a.isDigit && b.isDigit && c = '.' then some ([a, b], rest)
    else if a.isDigit && b = '.' then some ([a], c :: rest)
    else none
  | [a, b] => if a.isDigit && b = '.' then some ([a], []) else none
  | _ => none

/-- Match the final `\d{1,2}` of the date pattern (greedy). -/
def matchDay (l : List Char) : Option (List Char × List Char) :=
  match l with
  | a :: b :: rest =>
    if a.isDigit && b.isDigit then some ([a, b], rest)
    else if a.isDigit then some ([a], b :: rest)
    else none
  | [a] => if a.isDigit then some ([a], []) else none
  | [] => none

/-- Match the whole pattern `\d{4}\.\d{1,2}\.\d{1,2}` anchored at the head
of the list; returns the matched characters and the rest. -/
def matchDateAt (l : List Char) : Option (List Char × List Char) :=
  match l with
  | d1 :: d2 :: d3 :: d4 :: '.' :: rest =>
    if [d1, d2, d3, d4].all Char.isDigit then
      match matchMonthDot rest with
      | some (m, rest2) =>
        match matchDay rest2 with
        | some (d, rest3) => some (d1 :: d2 :: d3 :: d4 :: '.' :: (m ++ '.' :: d), rest3)
        | none => none
      | none => none
    else none
  | _ => none

/-- `re.findall(date_pattern, s)`: leftmost, non-overlapping matches.
Fuel-driven recursion; `l.length` fuel always suffices because every step
consumes at least one character. -/
def findAllDatesAux : Nat → List Char → List (List Char)
  | 0, _ => []
  | _ + 1, [] => []
  | fuel + 1, c :: rest =>
    match matchDateAt (c :: rest) with
    | some (m, after) => m :: findAllDatesAux fuel after
    | none => findAllDatesAux fuel rest

/-- All matches of the date pattern in `s`, in order. -/
def findAllDates (s : String) : List (List Char) :=
  findAllDatesAux s.data.length s.data

/-- A parsed calendar date. -/
structure YMD where
  y : Nat
  m : Nat
  d : Nat
deriving DecidableEq, Repr

/-- Days per month with leap years, the validation `datetime.strptime`
performs. -/
def daysInMonth (y m : Nat) : Nat :=
  if m = 2 then
    if y % 4 = 0 ∧ (y % 100 ≠ 0 ∨ y % 400 = 0) then 29 else 28
  else if m = 4 ∨ m = 6 ∨ m = 9 ∨ m = 11 then 30
  else 31

/-- `datetime.strptime(s, "%Y.%m.%d")` on a string of the matched shape:
`none` models the `ValueError` raised on out-of-range fields. -/
def parseYMD (l : List Char) : Option YMD :=
  match splitOnChar '.' l with
  | [ys, ms, ds] =>
    if ys ≠ [] ∧ ms ≠ [] ∧ ds ≠ [] ∧ (ys ++ ms ++ ds).all Char.isDigit then
      let y := natOfDigits ys
      let m := natOfDigits ms
      let d := natOfDigits ds
      if 1 ≤ y ∧ 1 ≤ m ∧ m ≤ 12 ∧ 1 ≤ d ∧ d ≤ daysInMonth y m then some ⟨y, m, d⟩
      else none
    else none
  | _ => none

/-- `datetime` comparison on dates: lexicographic. -/
def ymdLt (a b : YMD) : Bool :=
  decide (a.y < b.y ∨ (a.y = b.y ∧ (a.m < b.m ∨ (a.m = b.m ∧ a.d < b.d))))

/-- `strptime(re.findall(date_pattern, s)[0], "%Y.%m.%d")` as one fallible
step: the first date-pattern match of `s`, parsed; `none` models both the
`IndexError` (no match) and the `ValueError` (invalid date). -/
def firstDateOf (s : String) : Option YMD :=
  match findAllDates s with
  | [] => none
  | m :: _ => parseYMD m

/-! ## The schedule updater `update` (app.py:586-598) and the
table scan of `extract_schedule_from_table` (app.py:554-634) -/

/-- `update(label, new_val)` acting on the current stored value of one
label; `""` stands for the initial `None` (both falsy).  A stored value is
replaced either when nothing is stored yet, or when both the stored and the
offered value's first date parse and the offered one is strictly later; any
exception inside the `try` keeps the stored value. -/
def updateSched (old newVal : String) : String :=
  if old = "" then newVal
  else
    match firstDateOf old, firstDateOf newVal with
    | some od, some nd => if ymdLt od nd then newVal else old
    | _, _ => old

/-- A sequence of `update` calls on one label, from the initial state. -/
def runUpdates (vs : List String) : String :=
  vs.foldl updateSched ""

/-- `header_map` (app.py:565-582), in source order. -/
def header_map : List (String × String) :=
  [("입주자모집공고", "입주자모집공고일"),
   ("입주자 모집공고", "입주자모집공고일"),
   ("특별공급접수", "특별공급 접수일"),
   ("특별공급 신청", "특별공급 접수일"),
   ("특별공급 접수", "특별공급 접수일"),
   ("1순위 접수", "일반공급 1순위 접수일"),
   ("1순위", "일반공급 1순위 접수일"),
   ("일반공급 1순위 접수", "일반공급 1순위 접수일"),
   ("2순위 접수", "일반공급 2순위 접수일"),
   ("2순위", "일반공급 2순위 접수일"),
   ("일반공급 2순위 접수", "일반공급 2순위 접수일"),
   ("당첨자발표일", "당첨자발표일"),
   ("당첨자 발표", "당첨자발표일"),
   ("서류접수", "서류접수"),
   ("정당계약", "계약체결"),
   ("계약체결", "계약체결")]

/-- The schedule dictionary: the seven labels, initially unset. -/
def initSched : List (String × String) :=
  [("입주자모집공고일", ""),
   ("특별공급 접수일", ""),
   ("일반공급 1순위 접수일", ""),
   ("일반공급 2순위 접수일", ""),
   ("당첨자발표일", ""),
   ("서류접수", ""),
   ("계약체결", "")]

/-- Apply `update(label, v)` to the schedule dictionary. -/
def schedApply (sch : List (String × String)) (label v : String) : List (String × String) :=
  sch.map fun p => if p.1 = label then (p.1, updateSched p.2 v) else p

/-- Look a label up in the schedule dictionary. -/
def schedGet (sch : List (String × String)) (label : String) : Option String :=
  (sch.find? fun p => p.1 = label).map (·.2)

/-- The value the inner `for rr` scan (app.py:618-632) derives from one
cell below the label: the first date match, or `first ~ last` when the
label is a window label and the cell holds two or more dates. -/
def rowDateVal (label raw : String) : Option String :=
  match findAllDates raw with
  | [] => none
  | m :: rest =>
    let first : String := ⟨m⟩
    let last : String := ⟨rest.getLastD m⟩
    if (label = "서류접수" ∨ label = "계약체결") ∧ rest.length + 1 ≥ 2 then
      some (first ++ " ~ " ++ last)
    else some first

/-- Walk the rows below the label row (same column `c`), stopping at the
first row that yields a date value (`break` in the source); rows shorter
than `c` are skipped. -/
def firstUpdateBelow (later : List (List String)) (c : Nat) (label : String) : Option String :=
  match later with
  | [] => none
  | row :: rest =>
    if c ≥ row.length then firstUpdateBelow rest c label
    else
      match rowDateVal label (row.getD c "") with
      | some v => some v
      | none => firstUpdateBelow rest c label

/-- Process one cell at `(r, c)`: every `header_map` key contained in the
space-stripped cell triggers the downward scan and an `update`. -/
def processCell (rows : List (List String)) (r c : Nat) (cell : String)
    (sch : List (String × String)) : List (String × String) :=
  if cell = "" then sch
  else
    let cellT := removeSpaces cell
    header_map.foldl
      (fun sch kl =>
        if strContains cellT (removeSpaces kl.1) then
          match firstUpdateBelow (rows.drop (r + 1)) c kl.2 with
          | some v => schedApply sch kl.2 v
          | none => sch
        else sch)
      sch

/-- The double loop over one table's cells in `extract_schedule_from_table`
(app.py:609-632). -/
def processTable (rows : List (List String)) (sch : List (String × String)) :
    List (String × String) :=
  rows.enum.foldl
    (fun sch rrow =>
      rrow.2.enum.foldl
        (fun sch ccell => processCell rows rrow.1 ccell.1 ccell.2 sch)
        sch)
    sch

/-! ## `choose_final_company` (app.py:419-458), per role

The Python function computes each role's winner independently; the
embedding is that per-role computation.  Scores live in an
insertion-ordered association list, mirroring the `defaultdict`. -/

/-- `scores[role][name] += pts` on the insertion-ordered score list. -/
def addScore : List (String × Nat) → String → Nat → List (String × Nat)
  | [], name, pts => [(name, pts)]
  | p :: ps, name, pts =>
    if p.1 = name then (p.1, p.2 + pts) :: ps else p :: addScore ps name pts

/-- The score accumulation of `choose_final_company` for one role: each
table-derived `(name, page)` pair adds `3`, plus `2` when its page is the
document's last page; each text-derived name adds `2`; empty names are
skipped. -/
def buildScores (lastPage : Option Nat) (tableCands : List (String × Nat))
    (textCands : List String) : List (String × Nat) :=
  let s1 := tableCands.foldl
    (fun acc nc =>
      if nc.1 = "" then acc
      else addScore acc nc.1 (3 + if lastPage = some nc.2 then 2 else 0))
    []
  textCands.foldl (fun acc n => if n = "" then acc else addScore acc n 2) s1

/-- Look a name's total up in the score list (`defaultdict(int)`: absent
means `0`). -/
def lookupScore (scores : List (String × Nat)) (name : String) : Nat :=
  match scores.find? fun p => p.1 = name with
  | some p => p.2
  | none => 0

/-- `q` sorts strictly before `best` under the source's descending
`(score, len(name))` key. -/
def scoreBetter (q best : String × Nat) : Bool :=
  decide (best.2 < q.2 ∨ (best.2 = q.2 ∧ best.1.length < q.1.length))

/-- The head of `sorted(name_scores.items(), key=(score, len), reverse=True)`
for a stable sort: the earliest entry with the lexicographically maximal
key. -/
def chooseWinner : List (String × Nat) → String
  | [] => ""
  | p :: ps => (ps.foldl (fun best q => if scoreBetter q best then q else best) p).1

/-- `choose_final_company` restricted to one role. -/
def choose_final_company (lastPage : Option Nat) (tableCands : List (String × Nat))
    (textCands : List String) : String :=
  chooseWinner (buildScores lastPage tableCands textCands)

/-! ## Price-table rows and deduplication (app.py:1094-1129) -/

/-- One extracted price row (`rec` of `extract_price_table_from_tables`):
unit type 주택형, abbreviation 약식표기, building/line 동/호별, floor range
층구분, on-row unit count 해당세대수 and price subtotal 공급금액 소계. -/
structure PriceRec where
  htype : String
  abbr : String
  dongho : String
  floor : String
  haedang : String
  price : String
deriving DecidableEq, Repr

/-- The deduplication key `(주택형, 약식표기, 동/호별, 층구분)`. -/
def recKey (r : PriceRec) : String × String × String × String :=
  (r.htype, r.abbr, r.dongho, r.floor)

/-- `int(re.sub(r"[^0-9]", "", rec.get("공급금액 소계", "") or "0") or ...)`:
the digit-only numeric value of the price field, `0` when it has no
digits. -/
def recPriceInt (r : PriceRec) : Nat :=
  let s := if r.price = "" then "0" else r.price
  let d := digitsOnly s
  if d = "" then 0 else natOfDigits d.data

/-- One step of the dedup dict: first occurrence of a key claims its slot,
a later row with the same key replaces it only with a strictly larger
price. -/
def upsertPrice : List PriceRec → PriceRec → List PriceRec
  | [], rec => [rec]
  | r :: rs, rec =>
    if recKey r = recKey rec then
      (if recPriceInt rec > recPriceInt r then rec else r) :: rs
    else r :: upsertPrice rs rec

/-- The dedup pass of `extract_price_table_from_tables` (app.py:1105-1129):
`list(dedup.values())` in insertion order. -/
def dedupPrice (rows : List PriceRec) : List PriceRec :=
  rows.foldl upsertPrice []

/-! ## Column maps: header tables and continuation tables
(app.py:937-1002) -/

/-- `pd.DataFrame(table).fillna("")` column count: the longest row. -/
def tableNCols (tbl : List (List String)) : Nat :=
  tbl.foldl (fun m row => max m row.length) 0

/-- A cell of the padded DataFrame grid (missing cells are `""`). -/
def getCell (tbl : List (List String)) (r c : Nat) : String :=
  (tbl.getD r []).getD c ""

/-- `col_map[key] = c` on the insertion-ordered column map. -/
def setKey : List (String × Nat) → String → Nat → List (String × Nat)
  | [], k, v => [(k, v)]
  | p :: ps, k, v => if p.1 = k then (k, v) :: ps else p :: setKey ps k v

/-- Column-map lookup. -/
def mapLookup (m : List (String × Nat)) (k : String) : Option Nat :=
  (m.find? fun p => p.1 = k).map (·.2)

/-- `col_map.update(tmp_map)`. -/
def updateMap (m tmp : List (String × Nat)) : List (String × Nat) :=
  tmp.foldl (fun acc kv => setKey acc kv.1 kv.2) m

/-- `"".join(str(x) for x in row.tolist())` over a padded row. -/
def rowTxt (tbl : List (List String)) (r : Nat) : String :=
  (List.range (tableNCols tbl)).foldl (fun acc c => acc ++ getCell tbl r c) ""

/-- The header-signature test of app.py:939-945: a row containing 주택형
together with an abbreviation marker. -/
def isHeaderRowTxt (t : String) : Bool :=
  strContains t "주택형"
    && (strContains t "약식표기" || strContains t "약식 표기" || strContains t "약식")

/-- `header_idx`: the first row index whose joined text carries the
two-field header signature. -/
def headerRowIdx (tbl : List (List String)) : Option Nat :=
  (List.range tbl.length).find? fun i => isHeaderRowTxt (rowTxt tbl i)

/-- The concatenated, space/newline-stripped text of rows `[0, 4)` of
column `c` of grid `g` (`"".join(df2.iloc[0:4, c])`). -/
def colHdr4 (g : List (List String)) (c : Nat) : String :=
  stripSpaceNL ((List.range 4).foldl (fun acc r => acc ++ getCell g r c) "")

/-- The column-map construction of the header branch (app.py:954-967),
applied to the grid starting at the header row. -/
def buildColMap (g : List (List String)) (ncols : Nat) : List (String × Nat) :=
  (List.range ncols).foldl
    (fun m c =>
      let hdr := colHdr4 g c
      if strContains hdr "주택형" then setKey m "주택형" c
      else if strContains hdr "약식표기" || strContains hdr "약식표시"
          || strContains hdr "약식" then setKey m "약식표기" c
      else if (strContains hdr "동" && strContains hdr "호")
          || strContains hdr "동/호" then setKey m "동/호별" c
      else if strContains hdr "층구분"
          || (strContains hdr "층" && strContains hdr "구분") then setKey m "층구분" c
      else if strContains hdr "해당세대수" || strContains hdr "해당세대" then
        setKey m "해당세대수" c
      else m)
    []

/-- The column map a header table yields (`none` when no header row is
found): `buildColMap` over `df.iloc[header_idx:]` with the full table's
column count. -/
def headerColMap (tbl : List (List String)) : Option (List (String × Nat)) :=
  match headerRowIdx tbl with
  | none => none
  | some i => some (buildColMap (tbl.drop i) (tableNCols tbl))

/-- The concatenated, space/newline-stripped text of the first
`min 5 nrows` rows of column `c` (the continuation branch scans at most 5
rows). -/
def colHdr5 (tbl : List (List String)) (c : Nat) : String :=
  stripSpaceNL ((List.range (min 5 tbl.length)).foldl
    (fun acc r => acc ++ getCell tbl r c) "")

/-- `tmp_map` of the continuation branch (app.py:982-996): positions of
동/호별, 층구분 and 해당세대수 re-detected from the continuation table's
top rows. -/
def contTmpMap (tbl : List (List String)) : List (String × Nat) :=
  (List.range (tableNCols tbl)).foldl
    (fun tmp c =>
      let hdr := colHdr5 tbl c
      if (strContains hdr "동" && strContains hdr "호")
          || strContains hdr "동/호" then setKey tmp "동/호별" c
      else if strContains hdr "층구분"
          || (strContains hdr "층" && strContains hdr "구분") then setKey tmp "층구분" c
      else if strContains hdr "해당세대수" || strContains hdr "해당세대" then
        setKey tmp "해당세대수" c
      else tmp)
    []

/-- The continuation branch (app.py:971-998): with no previously accepted
header map (`[]` stands for the falsy `None`/`{}`) the table is skipped;
otherwise the last header map is reused, updated by `tmp_map`.  No column
count is compared and no index is shifted. -/
def continuationColMap (lastMap : List (String × Nat)) (tbl : List (List String)) :
    Option (List (String × Nat)) :=
  if lastMap = [] then none
  else some (updateMap lastMap (contTmpMap tbl))

/-! ## Numeric parsing inside the extractors (app.py:716-726 and
1059-1084), and the geometry variant's price cleanup (app.py:1311-1315) -/

/-- One iteration of the special-supply sum (app.py:717-724): a cell with
no digits contributes nothing, otherwise `int` of its digit-only form is
added.  `Option` threads the only fallible call, `int(num)`. -/
def specialStep (acc : Nat) (raw : String) : Option Nat :=
  let num := digitsOnly raw
  if num = "" then some acc else (pyInt num).map (acc + ·)

/-- The special-supply total over the five priority-allocation cells of a
row (`special_total` of `extract_supply_target_from_tables`). -/
def specialTotal (cells : List String) : Option Nat :=
  cells.foldlM specialStep 0

/-- `get_val_idx` (app.py:1016-1019) on a padded row. -/
def getValIdx (row : List String) (idx : Option Nat) : String :=
  match idx with
  | none => ""
  | some i => if i ≥ row.length then "" else pyStrip (row.getD i "")

/-- `candidate_start` (app.py:1061-1065): the column after 해당세대수, else
after 층구분, else `0`. -/
def candidateStart (colMap : List (String × Nat)) : Nat :=
  match mapLookup colMap "해당세대수" with
  | some i => i + 1
  | none =>
    match mapLookup colMap "층구분" with
    | some i => i + 1
    | none => 0

/-- One iteration of the rightward amount scan (app.py:1070-1081): cells
without digits are skipped, digit values of at most `100000` are skipped as
fees/options, a larger value than the current maximum becomes the new
price.  `Option` threads the only fallible call, `int(digits)`. -/
def scanStep (acc : Nat × String) (cell : String) : Option (Nat × String) :=
  let digits := digitsOnly cell
  if digits = "" then some acc
  else
    (pyInt digits).map fun v =>
      if v ≤ 100000 then acc
      else if v > acc.1 then (v, cell) else acc

/-- The amount scan of the grid-based extractor over one row starting at
`start`: `(max_price_int, price_val)`. -/
def priceScanGrid (row : List String) (start : Nat) : Option (Nat × String) :=
  ((List.range row.length).drop start).foldlM
    (fun acc c => scanStep acc (getValIdx row (some c))) (0, "")

/-- `if max_price_int == 0: continue` (app.py:1083-1085): the grid-based
row-admission test on the price side. -/
def gridRowPriceAdmits (row : List String) (start : Nat) : Bool :=
  match priceScanGrid row start with
  | some (n, _) => n ≠ 0
  | none => false

/-- The geometry-based variant's price cleanup (app.py:1311-1315): a price
word is discarded when it has no digits or its digit value is at most
`1000000`.  `int(p_digits)` is total here because `p_digits` is nonempty
and all digits. -/
def layoutPriceClean (v : String) : String :=
  if v = "" then v
  else
    let p := digitsOnly v
    if p = "" ∨ natOfDigits p.data ≤ 1000000 then "" else v

/-- `if not v_price: continue` (app.py:1322-1324): the geometry-based
row-admission test on the price side. -/
def layoutRowPriceAdmits (v : String) : Bool :=
  layoutPriceClean v ≠ ""

/-! ## `extract_move_in_date` (app.py:276-306) -/

/-- Match `(\d{4})\s*년\s*(\d{1,2})\s*월` anchored at the head of the
list, returning the year and month groups as `int(...)` does. -/
def matchP1At (l : List Char) : Option (Nat × Nat) :=
  match l with
  | d1 :: d2 :: d3 :: d4 :: rest =>
    if [d1, d2, d3, d4].all Char.isDigit then
      match rest.dropWhile isWS with
      | '년' :: rest2 =>
        let yr := natOfDigits [d1, d2, d3, d4]
        match rest2.dropWhile isWS with
        | a :: b :: rest4 =>
          if a.isDigit && b.isDigit then
            match rest4.dropWhile isWS with
            | '월' :: _ => some (yr, natOfDigits [a, b])
            | _ => none
          else if a.isDigit then
            match (b :: rest4).dropWhile isWS with
            | '월' :: _ => some (yr, natOfDigits [a])
            | _ => none
          else none
        | [a] =>
          if a.isDigit then none else none
        | [] => none
      | _ => none
    else none
  | _ => none

/-- `re.search` for the first pattern: leftmost match. -/
def searchP1 : List Char → Option (Nat × Nat)
  | [] => none
  | c :: rest =>
    match matchP1At (c :: rest) with
    | some r => some r
    | none => searchP1 rest

/-- Match `(\d{4})\.(\d{1,2})` anchored at the head of the list. -/
def matchP2At (l : List Char) : Option (Nat × Nat) :=
  match l with
  | d1 :: d2 :: d3 :: d4 :: '.' :: a :: rest =>
    if [d1, d2, d3, d4].all Char.isDigit && a.isDigit then
      let yr := natOfDigits [d1, d2, d3, d4]
      match rest with
      | b :: _ => if b.isDigit then some (yr, natOfDigits [a, b]) else some (yr, natOfDigits [a])
      | [] => some (yr, natOfDigits [a])
    else none
  | _ => none

/-- `re.search` for the second pattern: leftmost match. -/
def searchP2 : List Char → Option (Nat × Nat)
  | [] => none
  | c :: rest =>
    match matchP2At (c :: rest) with
    | some r => some r
    | none => searchP2 rest

/-- `f"{year}년 {month}월"` with the captured groups passed through
`int(...)`. -/
def fmtYM (y m : Nat) : String :=
  toString y ++ "년 " ++ toString m ++ "월"

/-- The candidate collection loop of `extract_move_in_date`
(app.py:279-287): stripped nonempty lines whose space-free form holds a
move-in keyword. -/
def moveInCandidates (text : String) : List String :=
  (pySplitlines text).foldr
    (fun line acc =>
      let s := pyStrip line
      if s = "" then acc
      else
        let ns := removeSpaces s
        if ["입주시기", "입주시기", "입주예정", "입주예정일"].any
            (fun k => strContains ns k) then s :: acc
        else acc)
    []

/-- The per-line pattern cascade of `extract_move_in_date`
(app.py:289-300): the first candidate line matching pattern 1, else
pattern 2, formatted as `{year}년 {month}월`. -/
def moveInScan : List String → Option String
  | [] => none
  | s :: rest =>
    match searchP1 s.data with
    | some (y, m) => some (fmtYM y m)
    | none =>
      match searchP2 s.data with
      | some (y, m) => some (fmtYM y m)
      | none => moveInScan rest

/-- `extract_move_in_date` (app.py:276-306).  When no candidate line
matches a pattern, the first candidate is returned, truncated to 40
characters with an ellipsis. -/
def extract_move_in_date (text : String) : Option String :=
  let cands := moveInCandidates text
  match moveInScan cands with
  | some v => some v
  | none =>
    match cands with
    | [] => none
    | first :: _ =>
      some (if first.length > 40 then (⟨first.data.take 40⟩ : String) ++ "..." else first)

/-! ## Concrete inputs used by the counterexamples and witnesses -/

/-- A 32-character name whose stripped form is the 2-character hint
keyword 건설. -/
def longSpacedName : String :=
  "건설" ++ ⟨List.replicate 30 ' '⟩

/-- The text line of Scenario A. -/
def scenarioALine : String :=
  "서울특별시 강남구 ○○동 입주자모집공고"

/-- The table of Scenario E: the schedule label at row 3 column 1, a date
at row 4 column 1, a later date at row 9 column 1. -/
def scheduleTableE : List (List String) :=
  [["", ""], ["", ""], ["", ""],
   ["", "특별공급 접수"],
   ["", "2025.03.10"],
   ["", ""], ["", ""], ["", ""], ["", ""],
   ["", "2025.03.15"]]

/-- A five-column header table whose building/line column is index 2. -/
def headerTbl3 : List (List String) :=
  [["주택형", "약식표기", "동/호별", "층구분", "해당세대수"],
   ["84.9A", "84A", "101동", "5층", "3"]]

/-- The column map `headerTbl3` yields. -/
def priceColMap3 : List (String × Nat) :=
  [("주택형", 0), ("약식표기", 1), ("동/호별", 2), ("층구분", 3), ("해당세대수", 4)]

/-- A continuation table with exactly one fewer column (4) than
`headerTbl3`, and no header keywords in its rows. -/
def contTbl3 : List (List String) :=
  [["84A", "201", "5", "360000000"],
   ["84B", "202", "3", "350000000"]]

/-- A continuation table with two fewer columns (3) than `headerTbl3`. -/
def contTblNarrow : List (List String) :=
  [["84A", "5", "360000000"]]

/-! # Theorems -/

/-! ## Shared helper lemmas -/

theorem digitsOnly_all_digit (s : String) : (digitsOnly s).data.all Char.isDigit = true := by
  rw [List.all_eq_true]
  intro c hc
  exact (List.mem_filter.mp hc).2

theorem pyInt_digitsOnly (s : String) (h : digitsOnly s ≠ "") :
    pyInt (digitsOnly s) = some (natOfDigits (digitsOnly s).data) := by
  have hne : (digitsOnly s).data ≠ [] := by
    intro hd
    exact h (by cases hs : digitsOnly s with | _ d => simpa [hs] using congrArg String.mk hd)
  rw [pyInt, if_pos ⟨hne, digitsOnly_all_digit s⟩]

theorem isWS_not_digit (c : Char) (h : isWS c = true) : c.isDigit = false := by
  simp only [isWS, Bool.or_eq_true, decide_eq_true_eq] at h
  rcases h with ((h | h) | h) | h <;> subst h <;> decide

theorem filter_digit_dropWhile_isWS (l : List Char) :
    (l.dropWhile isWS).filter Char.isDigit = l.filter Char.isDigit := by
  induction l with
  | nil => rfl
  | cons c rest ih =>
    by_cases h : isWS c = true
    · rw [List.dropWhile_cons_of_pos h, ih, List.filter_cons_of_neg]
      simp [isWS_not_digit c h]
    · rw [List.dropWhile_cons_of_neg h]

theorem digitsOnly_pyStrip (s : String) : digitsOnly (pyStrip s) = digitsOnly s := by
  show String.mk _ = String.mk _
  rw [pyStrip]
  simp only [List.filter_reverse, filter_digit_dropWhile_isWS, List.reverse_reverse]

/-! ## C8: `looks_like_company` and long names -/

/-- C8 counterexample: `looks_like_company` strips the name before the
30-character length check, so a 32-character input whose stripped form is
a short hint keyword is accepted. -/
theorem looks_like_company_long_cex :
    30 < longSpacedName.length ∧ looks_like_company longSpacedName = true := by
  constructor
  · decide
  · decide

/-- C8 (amended): `looks_like_company name` is `false` whenever the
*stripped* name is longer than 30 characters — the source applies
`name.strip()` before comparing `len(name) > 30` (app.py:134-136). -/
theorem looks_like_company_long_stripped (name : String)
    (h : 30 < (pyStrip name).length) : looks_like_company name = false := by
  by_cases hne : name = ""
  · subst hne
    exact absurd h (by decide)
  · simp only [looks_like_company, if_neg hne]
    rw [if_pos h]

/-- C8 witness: the amended bound at a concrete 31-character input. -/
theorem looks_like_company_long_stripped_witness :
    looks_like_company ⟨List.replicate 31 'a'⟩ = false :=
  looks_like_company_long_stripped ⟨List.replicate 31 'a'⟩ (by decide)

/-! ## C7: `parse_complex_name` -/

/-- C7 counterexample: on the Scenario A line the extractor keeps the
whole text before the marker, not just `"○○동"`. -/
theorem parse_complex_name_scenarioA_cex :
    parse_complex_name scenarioALine ≠ some "○○동" := by
  decide

theorem complexNameRaw_none (lines : List String)
    (h : ∀ l ∈ lines, strContains (pyStrip l) "입주자모집공고" = false) :
    complexNameRaw lines = none := by
  induction lines with
  | nil => rfl
  | cons l rest ih =>
    rw [complexNameRaw]
    simp only [h l (List.mem_cons_self l rest)]
    exact ih fun l' hl' => h l' (List.mem_cons_of_mem l hl')

/-- C7 (amended): on the Scenario A line `parse_complex_name` returns the
whole marker-stripped line `"서울특별시 강남구 ○○동"`; in general it takes
the first marker line, strips the marker, collapses whitespace, trims the
punctuation set, and returns nothing when no line contains the marker. -/
theorem parse_complex_name_correct :
    parse_complex_name scenarioALine = some "서울특별시 강남구 ○○동" ∧
    ∀ text : String,
      (∀ l ∈ pySplitlines text, strContains (pyStrip l) "입주자모집공고" = false) →
      parse_complex_name text = none := by
  constructor
  · decide
  · intro text h
    rw [parse_complex_name, complexNameRaw_none (pySplitlines text) h]

/-! ## C2: grid-based vs geometry-based price admission -/

/-- C2 counterexample: a price cell with digit value `500000` is admitted
by the grid-based amount scan (threshold `100000`, app.py:1077) but
discarded by the geometry-based cleanup (threshold `1000000`,
app.py:1314). -/
theorem price_admission_mismatch_cex :
    gridRowPriceAdmits ["500,000"] 0 = true ∧
    layoutRowPriceAdmits "500,000" = false := by
  decide

/-- C2 (amended): the two variants' magnitude rules are one-directional —
a price value the geometry-based variant keeps (digit value above
`1000000`) is also admitted by the grid-based variant's amount scan
(digit value above `100000`); the counterexample shows the converse
fails. -/
theorem price_admission_layout_implies_grid (v : String)
    (h : layoutRowPriceAdmits v = true) : gridRowPriceAdmits [v] 0 = true := by
  have h' : layoutPriceClean v ≠ "" := by
    simpa [layoutRowPriceAdmits] using h
  have hv : v ≠ "" := by
    intro hv
    apply h'
    simp [layoutPriceClean, hv]
  have hmain : digitsOnly v ≠ "" ∧ 1000000 < natOfDigits (digitsOnly v).data := by
    by_contra hc
    apply h'
    simp only [layoutPriceClean, if_neg hv]
    rcases not_and_or.mp hc with hp | hb
    · rw [if_pos (Or.inl (not_not.mp hp))]
    · rw [if_pos (Or.inr (not_lt.mp hb))]
  obtain ⟨hp, hbig⟩ := hmain
  have hscan : scanStep (0, "") (pyStrip v) =
      some (natOfDigits (digitsOnly v).data, pyStrip v) := by
    simp only [scanStep, digitsOnly_pyStrip, if_neg hp, pyInt_digitsOnly v hp,
      Option.map_some']
    rw [if_neg (show ¬ natOfDigits (digitsOnly v).data ≤ 100000 by omega)]
    simp only [gt_iff_lt]
    rw [if_pos (show (0, "").1 < natOfDigits (digitsOnly v).data by simp; omega)]
  have hfold : priceScanGrid [v] 0 =
      some (natOfDigits (digitsOnly v).data, pyStrip v) := by
    have hrange : (List.range ([v] : List String).length).drop 0 = [0] := rfl
    have hcell : getValIdx [v] (some 0) = pyStrip v := by
      simp [getValIdx]
    rw [priceScanGrid, hrange, List.foldlM_cons, hcell, hscan]
    simp
  rw [gridRowPriceAdmits, hfold]
  simp only [decide_eq_true_eq]
  omega

/-- C2 witness: the amended implication at the concrete price word
`"2,000,000"`. -/
theorem price_admission_layout_implies_grid_witness :
    gridRowPriceAdmits ["2,000,000"] 0 = true :=
  price_admission_layout_implies_grid "2,000,000" (by decide)

/-! ## C9: numeric parse failures never escape the extractors -/

theorem foldlM_option_isSome {α β : Type} (f : α → β → Option α)
    (hf : ∀ a b, (f a b).isSome = true) :
    ∀ (l : List β) (a : α), (l.foldlM f a).isSome = true := by
  intro l
  induction l with
  | nil => intro a; rfl
  | cons x xs ih =>
    intro a
    rw [List.foldlM_cons]
    obtain ⟨a', ha'⟩ := Option.isSome_iff_exists.mp (hf a x)
    rw [ha']
    exact ih a'

theorem specialStep_isSome (acc : Nat) (raw : String) :
    (specialStep acc raw).isSome = true := by
  simp only [specialStep]
  by_cases hnum : digitsOnly raw = ""
  · rw [if_pos hnum]; rfl
  · rw [if_neg hnum, pyInt_digitsOnly raw hnum]; rfl

theorem scanStep_isSome (acc : Nat × String) (cell : String) :
    (scanStep acc cell).isSome = true := by
  simp only [scanStep]
  by_cases hd : digitsOnly cell = ""
  · rw [if_pos hd]; rfl
  · rw [if_neg hd, pyInt_digitsOnly cell hd]; rfl

/-- C9: in the supply-type and price-table extractors, numeric parsing of
arbitrary cell contents is total — `int(...)` is only reached on nonempty
all-digit strings, so the special-supply sum and the rightward amount scan
always return a value (never an exception), and a cell without digits
contributes `0` to the sum / is skipped by the scan. -/
theorem numeric_parse_total :
    (∀ cells : List String, (specialTotal cells).isSome = true) ∧
    (∀ (acc : Nat) (raw : String), digitsOnly raw = "" → specialStep acc raw = some acc) ∧
    (∀ (row : List String) (start : Nat), (priceScanGrid row start).isSome = true) ∧
    (∀ (acc : Nat × String) (cell : String), digitsOnly cell = "" →
      scanStep acc cell = some acc) := by
  refine ⟨?_, ?_, ?_, ?_⟩
  · intro cells
    exact foldlM_option_isSome specialStep specialStep_isSome cells 0
  · intro acc raw h
    simp only [specialStep, if_pos h]
  · intro row start
    exact foldlM_option_isSome _
      (fun a c => scanStep_isSome a (getValIdx row (some c))) _ (0, "")
  · intro acc cell h
    simp only [scanStep, if_pos h]

/-! ## C4: the schedule updater -/

/-- C4 counterexample: when nothing is stored yet, `update` stores the
offered value unconditionally (app.py:588-590), so the unparseable offer
`"hello"` changes the stored value, and a later successfully parsed date
`"2025.1.1"` can no longer be stored — the final value holds no date at
all. -/
theorem schedule_update_cex :
    runUpdates ["hello", "2025.1.1"] = "hello" ∧
    firstDateOf "hello" = none ∧
    firstDateOf "2025.1.1" = some ⟨2025, 1, 1⟩ := by
  refine ⟨by decide, by decide, by decide⟩

theorem ymdLt_irrefl (a : YMD) : ymdLt a a = false := by
  simp only [ymdLt, decide_eq_false_iff_not]
  omega

theorem ymdLt_trans {a b c : YMD} (h1 : ymdLt a b = true) (h2 : ymdLt b c = true) :
    ymdLt a c = true := by
  simp only [ymdLt, decide_eq_true_eq] at *
  omega

theorem ymdLt_not_lt_trans {a b c : YMD} (h1 : ymdLt b a = false)
    (h2 : ymdLt c b = false) : ymdLt c a = false := by
  simp only [ymdLt, decide_eq_false_iff_not] at *
  omega

theorem firstDateOf_empty : firstDateOf "" = none := rfl

theorem updateSched_keeps_of_parse_fail (old v : String) (hold : old ≠ "")
    (hv : firstDateOf v = none) : updateSched old v = old := by
  rw [updateSched, if_neg hold, hv]
  cases firstDateOf old <;> rfl

theorem runUpdates_aux (vs : List String) :
    ∀ (s : String) (d : YMD), firstDateOf s = some d →
      ∃ e, firstDateOf (vs.foldl updateSched s) = some e ∧
        (e = d ∨ e ∈ vs.filterMap firstDateOf) ∧
        ymdLt e d = false ∧
        ∀ x ∈ vs.filterMap firstDateOf, ymdLt e x = false := by
  induction vs with
  | nil =>
    intro s d hd
    exact ⟨d, by simpa using hd, Or.inl rfl, ymdLt_irrefl d, by simp⟩
  | cons v vs ih =>
    intro s d hd
    have hs : s ≠ "" := by
      intro h
      rw [h, firstDateOf_empty] at hd
      cases hd
    have hstep : vs.foldl updateSched (updateSched s v) =
        (v :: vs).foldl updateSched s := rfl
    rw [← hstep]
    cases hnd : firstDateOf v with
    | none =>
      have hfm : (v :: vs).filterMap firstDateOf = vs.filterMap firstDateOf := by
        rw [List.filterMap_cons, hnd]
      rw [updateSched_keeps_of_parse_fail s v hs hnd, hfm]
      exact ih s d hd
    | some nd =>
      have hfm : (v :: vs).filterMap firstDateOf = nd :: vs.filterMap firstDateOf := by
        rw [List.filterMap_cons, hnd]
      by_cases hlt : ymdLt d nd = true
      · have hupd : updateSched s v = v := by
          rw [updateSched, if_neg hs, hd, hnd]
          show (if ymdLt d nd = true then v else s) = v
          rw [if_pos hlt]
        rw [hupd]
        obtain ⟨e, he, hmem, hend, hmax⟩ := ih v nd hnd
        refine ⟨e, he, ?_, ?_, ?_⟩
        · rw [hfm]
          rcases hmem with h | h
          · exact Or.inr (h ▸ List.mem_cons_self nd _)
          · exact Or.inr (List.mem_cons_of_mem nd h)
        · by_contra hc
          rw [Bool.not_eq_false] at hc
          have := ymdLt_trans hc hlt
          rw [hend] at this
          cases this
        · intro x hx
          rw [hfm] at hx
          rcases List.mem_cons.mp hx with h | h
          · exact h ▸ hend
          · exact hmax x h
      · have hltf : ymdLt d nd = false := by simpa using hlt
        have hupd : updateSched s v = s := by
          rw [updateSched, if_neg hs, hd, hnd]
          show (if ymdLt d nd = true then v else s) = s
          rw [if_neg (by simp [hltf])]
        rw [hupd]
        obtain ⟨e, he, hmem, hend, hmax⟩ := ih s d hd
        refine ⟨e, he, ?_, hend, ?_⟩
        · rw [hfm]
          rcases hmem with h | h
          · exact Or.inl h
          · exact Or.inr (List.mem_cons_of_mem nd h)
        · intro x hx
          rw [hfm] at hx
          rcases List.mem_cons.mp hx with h | h
          · subst h
            exact ymdLt_not_lt_trans hltf hend
          · exact hmax x h

/-- C4 (amended): once a value is stored, an offer whose first date fails
to parse never changes it; and for every sequence of offers whose *first*
offer's first date parses, the final stored value's first date is the
maximum (latest) of all successfully parsed offered dates — malformed
offers interleaved anywhere after the first are no-ops.  The original
claim fails only in the empty-store case: the first offer is stored
unconditionally, parseable or not (app.py:588-590). -/
theorem schedule_update_correct :
    (∀ old v : String, old ≠ "" → firstDateOf v = none → updateSched old v = old) ∧
    (∀ (v : String) (vs : List String) (d : YMD), firstDateOf v = some d →
      ∃ e, firstDateOf (runUpdates (v :: vs)) = some e ∧
        e ∈ (v :: vs).filterMap firstDateOf ∧
        ∀ x ∈ (v :: vs).filterMap firstDateOf, ymdLt e x = false) := by
  constructor
  · exact updateSched_keeps_of_parse_fail
  · intro v vs d hvd
    have hfirst : updateSched "" v = v := by rw [updateSched, if_pos rfl]
    have hrun : runUpdates (v :: vs) = vs.foldl updateSched v := by
      rw [runUpdates, List.foldl_cons, hfirst]
    obtain ⟨e, he, hmem, hend, hmax⟩ := runUpdates_aux vs v d hvd
    have hfm : (v :: vs).filterMap firstDateOf = d :: vs.filterMap firstDateOf := by
      rw [List.filterMap_cons, hvd]
    refine ⟨e, hrun ▸ he, ?_, ?_⟩
    · rw [hfm]
      rcases hmem with h | h
      · exact h ▸ List.mem_cons_self d _
      · exact List.mem_cons_of_mem d h
    · intro x hx
      rw [hfm] at hx
      rcases List.mem_cons.mp hx with h | h
      · exact h ▸ hend
      · exact hmax x h

/-! ## C6: Scenario E under the schedule extractor -/

/-- C6 counterexample: the downward scan stops at the *first* row below
the label that yields a date (`break`, app.py:632), so with only one label
occurrence the later date `"2025.03.15"` at row 9 is never read — the
stored value is not `"2025.03.15"`. -/
theorem schedule_scenarioE_cex :
    schedGet (processTable scheduleTableE initSched) "특별공급 접수일" ≠
      some "2025.03.15" := by
  decide

/-- C6 (amended): on the Scenario E table the final stored value for the
special-supply label is `"2025.03.10"`, the date in the first row below
the label cell. -/
theorem schedule_scenarioE_value :
    schedGet (processTable scheduleTableE initSched) "특별공급 접수일" =
      some "2025.03.10" := by
  decide

/-! ## C5: company scoring and winner selection -/

theorem lookupScore_cons (p : String × Nat) (ps : List (String × Nat)) (name : String) :
    lookupScore (p :: ps) name = if p.1 = name then p.2 else lookupScore ps name := by
  simp only [lookupScore]
  by_cases h : p.1 = name
  · rw [List.find?_cons_of_pos _ (by simpa using h), if_pos h]
  · rw [List.find?_cons_of_neg _ (by simpa using h), if_neg h]

theorem lookupScore_addScore (acc : List (String × Nat)) (n : String) (pts : Nat)
    (name : String) :
    lookupScore (addScore acc n pts) name =
      if name = n then lookupScore acc name + pts else lookupScore acc name := by
  induction acc with
  | nil =>
    have h1 : addScore [] n pts = [(n, pts)] := rfl
    have h0 : lookupScore [] name = 0 := rfl
    rw [h1, lookupScore_cons]
    by_cases h : name = n
    · rw [if_pos h, if_pos h.symm, h0]
      omega
    · rw [if_neg (fun hn : n = name => h hn.symm), if_neg h]
  | cons p ps ih =>
    by_cases hpn : p.1 = n
    · rw [addScore, if_pos hpn, lookupScore_cons, lookupScore_cons]
      by_cases h2 : name = n
      · rw [if_pos h2]
        have : p.1 = name := by rw [hpn, h2]
        rw [if_pos this, if_pos this]
      · rw [if_neg h2]
        have : ¬ p.1 = name := fun hc => h2 (by rw [← hc, hpn])
        rw [if_neg this, if_neg this]
    · rw [addScore, if_neg hpn, lookupScore_cons, ih, lookupScore_cons]
      by_cases h3 : p.1 = name
      · rw [if_pos h3, if_pos h3]
        have : ¬ name = n := fun hc => hpn (by rw [h3, hc])
        rw [if_neg this]
      · rw [if_neg h3, if_neg h3]

theorem lookup_table_fold (lastPage : Option Nat) (cands : List (String × Nat)) :
    ∀ (acc : List (String × Nat)) (name : String), name ≠ "" →
      lookupScore (cands.foldl (fun acc nc => if nc.1 = "" then acc
          else addScore acc nc.1 (3 + if lastPage = some nc.2 then 2 else 0)) acc) name =
        lookupScore acc name + 3 * cands.countP (fun p => p.1 = name)
          + 2 * cands.countP (fun p => p.1 = name ∧ lastPage = some p.2) := by
  induction cands with
  | nil =>
    intro acc name _
    simp
  | cons nc rest ih =>
    intro acc name hname
    rw [List.foldl_cons, List.countP_cons, List.countP_cons]
    by_cases h0 : nc.1 = ""
    · have hc1 : (decide (nc.1 = name)) = false := by
        simp only [decide_eq_false_iff_not]
        intro h
        exact hname (by rw [← h, h0])
      have hc2 : (decide (nc.1 = name ∧ lastPage = some nc.2)) = false := by
        simp only [decide_eq_false_iff_not]
        rintro ⟨h, -⟩
        exact hname (by rw [← h, h0])
      rw [if_pos h0, ih acc name hname, hc1, hc2]
      simp
    · rw [if_neg h0, ih _ name hname, lookupScore_addScore]
      by_cases h2 : name = nc.1
      · have hc1 : (decide (nc.1 = name)) = true := by simp [h2]
        rw [if_pos h2, hc1]
        by_cases h3 : lastPage = some nc.2
        · have hc2 : (decide (nc.1 = name ∧ lastPage = some nc.2)) = true := by
            simp [h2, h3]
          rw [if_pos h3, hc2]
          simp only [eq_self_iff_true, if_true]
          omega
        · have hc2 : (decide (nc.1 = name ∧ lastPage = some nc.2)) = false := by
            simp [h3]
          rw [if_neg h3, hc2]
          simp only [eq_self_iff_true, if_true, Bool.false_eq_true, if_false]
          omega
      · have hc1 : (decide (nc.1 = name)) = false := by
          simp only [decide_eq_false_iff_not]
          exact fun hc => h2 hc.symm
        have hc2 : (decide (nc.1 = name ∧ lastPage = some nc.2)) = false := by
          simp only [decide_eq_false_iff_not]
          rintro ⟨hc, -⟩
          exact h2 hc.symm
        rw [if_neg h2, hc1, hc2]
        simp
  
theorem lookup_text_fold (cands : List String) :
    ∀ (acc : List (String × Nat)) (name : String), name ≠ "" →
      lookupScore (cands.foldl (fun acc n => if n = "" then acc else addScore acc n 2) acc)
          name =
        lookupScore acc name + 2 * cands.countP (fun n => n = name) := by
  induction cands with
  | nil =>
    intro acc name _
    simp
  | cons c rest ih =>
    intro acc name hname
    rw [List.foldl_cons, List.countP_cons]
    by_cases h0 : c = ""
    · have hc1 : (decide (c = name)) = false := by
        simp only [decide_eq_false_iff_not]
        intro h
        exact hname (by rw [← h, h0])
      rw [if_pos h0, ih acc name hname, hc1]
      simp
    · rw [if_neg h0, ih _ name hname, lookupScore_addScore]
      by_cases h2 : name = c
      · have hc1 : (decide (c = name)) = true := by simp [h2]
        rw [if_pos h2, hc1]
        simp only [if_true]
        omega
      · have hc1 : (decide (c = name)) = false := by
          simp only [decide_eq_false_iff_not]
          exact fun hc => h2 hc.symm
        rw [if_neg h2, hc1]
        simp

theorem scoreBetter_irrefl (a : String × Nat) : scoreBetter a a = false := by
  simp only [scoreBetter, decide_eq_false_iff_not]
  omega

theorem scoreBetter_trans {a b c : String × Nat} (h1 : scoreBetter a b = true)
    (h2 : scoreBetter b c = true) : scoreBetter a c = true := by
  simp only [scoreBetter, decide_eq_true_eq] at *
  omega

theorem scoreBetter_neg_trans {a b c : String × Nat} (h1 : scoreBetter a b = false)
    (h2 : scoreBetter b c = false) : scoreBetter a c = false := by
  simp only [scoreBetter, decide_eq_false_iff_not] at *
  omega

theorem pickBest_spec (ps : List (String × Nat)) :
    ∀ p : String × Nat,
      (ps.foldl (fun best q => if scoreBetter q best then q else best) p) ∈ p :: ps ∧
      ∀ q ∈ p :: ps,
        scoreBetter q (ps.foldl (fun best q => if scoreBetter q best then q else best) p)
          = false := by
  induction ps with
  | nil =>
    intro p
    refine ⟨List.mem_cons_self p [], ?_⟩
    intro q hq
    rcases List.mem_cons.mp hq with rfl | h
    · exact scoreBetter_irrefl q
    · cases h
  | cons q0 rest ih =>
    intro p
    rw [List.foldl_cons]
    by_cases hb : scoreBetter q0 p = true
    · rw [if_pos hb]
      obtain ⟨hmem, hmax⟩ := ih q0
      refine ⟨?_, ?_⟩
      · rcases List.mem_cons.mp hmem with h | h
        · rw [h]
          exact List.mem_cons_of_mem _ (List.mem_cons_self _ _)
        · exact List.mem_cons_of_mem _ (List.mem_cons_of_mem _ h)
      · intro q hq
        rcases List.mem_cons.mp hq with h | hq'
        · rw [h]
          have hq0 := hmax q0 (List.mem_cons_self _ _)
          by_contra hc
          rw [Bool.not_eq_false] at hc
          have htr := scoreBetter_trans hb hc
          rw [hq0] at htr
          cases htr
        · rcases List.mem_cons.mp hq' with h | hq''
          · rw [h]
            exact hmax _ (List.mem_cons_self _ _)
          · exact hmax _ (List.mem_cons_of_mem _ hq'')
    · rw [if_neg hb]
      obtain ⟨hmem, hmax⟩ := ih p
      refine ⟨?_, ?_⟩
      · rcases List.mem_cons.mp hmem with h | h
        · rw [h]
          exact List.mem_cons_self _ _
        · exact List.mem_cons_of_mem _ (List.mem_cons_of_mem _ h)
      · intro q hq
        rcases List.mem_cons.mp hq with h | hq'
        · rw [h]
          exact hmax _ (List.mem_cons_self _ _)
        · rcases List.mem_cons.mp hq' with h | hq''
          · rw [h]
            have hpf := hmax _ (List.mem_cons_self _ _)
            have hbf : scoreBetter q0 p = false := by simpa using hb
            exact scoreBetter_neg_trans hbf hpf
          · exact hmax _ (List.mem_cons_of_mem _ hq'')

theorem chooseWinner_spec (scores : List (String × Nat)) (h : scores ≠ []) :
    ∃ s, (chooseWinner scores, s) ∈ scores ∧
      ∀ q ∈ scores, q.2 ≤ s ∧ (q.2 = s → q.1.length ≤ (chooseWinner scores).length) := by
  match scores, h with
  | p :: ps, _ =>
    obtain ⟨hmem, hmax⟩ := pickBest_spec ps p
    refine ⟨(ps.foldl (fun best q => if scoreBetter q best then q else best) p).2, ?_, ?_⟩
    · have : chooseWinner (p :: ps) =
          (ps.foldl (fun best q => if scoreBetter q best then q else best) p).1 := rfl
      rw [this]
      exact hmem
    · intro q hq
      have hqb := hmax q hq
      rw [scoreBetter, decide_eq_false_iff_not] at hqb
      push_neg at hqb
      have hcw : chooseWinner (p :: ps) =
          (ps.foldl (fun best q => if scoreBetter q best then q else best) p).1 := rfl
      constructor
      · omega
      · intro hs
        rw [hcw]
        exact hqb.2 hs.symm

/-- C5: per role, the resolver adds `3` for each table-derived candidate
occurrence plus `2` when its page is the document's last page, `2` for
each text-derived occurrence (empty names skipped), and the selected
winner carries the maximum total score, ties broken by the longer name. -/
theorem choose_final_company_correct (lastPage : Option Nat)
    (tableCands : List (String × Nat)) (textCands : List String) :
    (∀ name : String, name ≠ "" →
      lookupScore (buildScores lastPage tableCands textCands) name =
        3 * tableCands.countP (fun p => p.1 = name)
          + 2 * tableCands.countP (fun p => p.1 = name ∧ lastPage = some p.2)
          + 2 * textCands.countP (fun n => n = name)) ∧
    (buildScores lastPage tableCands textCands ≠ [] →
      ∃ s, (choose_final_company lastPage tableCands textCands, s) ∈
          buildScores lastPage tableCands textCands ∧
        ∀ q ∈ buildScores lastPage tableCands textCands,
          q.2 ≤ s ∧ (q.2 = s →
            q.1.length ≤ (choose_final_company lastPage tableCands textCands).length)) := by
  constructor
  · intro name hname
    simp only [buildScores]
    rw [lookup_text_fold textCands _ name hname,
      lookup_table_fold lastPage tableCands _ name hname]
    have : lookupScore [] name = 0 := rfl
    rw [this]
    omega
  · intro hne
    exact chooseWinner_spec _ hne

/-! ## C1: price-row deduplication -/

theorem upsertPrice_mem (rec : PriceRec) :
    ∀ (acc : List PriceRec) (r : PriceRec), r ∈ upsertPrice acc rec → r ∈ acc ∨ r = rec := by
  intro acc
  induction acc with
  | nil =>
    intro r h
    right
    simpa [upsertPrice] using h
  | cons a as ih =>
    intro r h
    rw [upsertPrice] at h
    by_cases hk : recKey a = recKey rec
    · rw [if_pos hk] at h
      rcases List.mem_cons.mp h with h | h
      · by_cases hp : recPriceInt rec > recPriceInt a
        · rw [if_pos hp] at h
          exact Or.inr h
        · rw [if_neg hp] at h
          exact Or.inl (h ▸ List.mem_cons_self a as)
      · exact Or.inl (List.mem_cons_of_mem a h)
    · rw [if_neg hk] at h
      rcases List.mem_cons.mp h with h | h
      · exact Or.inl (h ▸ List.mem_cons_self a as)
      · rcases ih r h with h' | h'
        · exact Or.inl (List.mem_cons_of_mem a h')
        · exact Or.inr h'

theorem upsertPrice_pairwise (rec : PriceRec) :
    ∀ acc : List PriceRec, acc.Pairwise (fun a b => recKey a ≠ recKey b) →
      (upsertPrice acc rec).Pairwise (fun a b => recKey a ≠ recKey b) := by
  intro acc
  induction acc with
  | nil =>
    intro _
    simp [upsertPrice]
  | cons a as ih =>
    intro hp
    rw [List.pairwise_cons] at hp
    obtain ⟨ha, has⟩ := hp
    rw [upsertPrice]
    by_cases hk : recKey a = recKey rec
    · rw [if_pos hk, List.pairwise_cons]
      refine ⟨?_, has⟩
      intro b hb
      by_cases hpp : recPriceInt rec > recPriceInt a
      · rw [if_pos hpp, ← hk]
        exact ha b hb
      · rw [if_neg hpp]
        exact ha b hb
    · rw [if_neg hk, List.pairwise_cons]
      refine ⟨?_, ih has⟩
      intro b hb
      rcases upsertPrice_mem rec as b hb with h | h
      · exact ha b h
      · rw [h]
        exact fun hc => hk hc

theorem upsertPrice_key_self (rec : PriceRec) :
    ∀ acc : List PriceRec, ∃ r ∈ upsertPrice acc rec, recKey r = recKey rec := by
  intro acc
  induction acc with
  | nil =>
    refine ⟨rec, ?_, rfl⟩
    simp [upsertPrice]
  | cons a as ih =>
    rw [upsertPrice]
    by_cases hk : recKey a = recKey rec
    · rw [if_pos hk]
      refine ⟨if recPriceInt rec > recPriceInt a then rec else a, List.mem_cons_self _ _, ?_⟩
      by_cases hpp : recPriceInt rec > recPriceInt a
      · rw [if_pos hpp]
      · rw [if_neg hpp]
        exact hk
    · rw [if_neg hk]
      obtain ⟨r, hr, hkey⟩ := ih
      exact ⟨r, List.mem_cons_of_mem a hr, hkey⟩

theorem upsertPrice_key_mem (rec : PriceRec) :
    ∀ (acc : List PriceRec) (r₂ : PriceRec), r₂ ∈ acc →
      ∃ r ∈ upsertPrice acc rec, recKey r = recKey r₂ := by
  intro acc
  induction acc with
  | nil =>
    intro r₂ h
    cases h
  | cons a as ih =>
    intro r₂ h
    rw [upsertPrice]
    by_cases hk : recKey a = recKey rec
    · rw [if_pos hk]
      rcases List.mem_cons.mp h with h | h
      · refine ⟨if recPriceInt rec > recPriceInt a then rec else a,
          List.mem_cons_self _ _, ?_⟩
        rw [h]
        by_cases hpp : recPriceInt rec > recPriceInt a
        · rw [if_pos hpp]
          exact hk.symm
        · rw [if_neg hpp]
      · exact ⟨r₂, List.mem_cons_of_mem _ h, rfl⟩
    · rw [if_neg hk]
      rcases List.mem_cons.mp h with h | h
      · exact ⟨a, List.mem_cons_self _ _, by rw [h]⟩
      · obtain ⟨r, hr, hkey⟩ := ih r₂ h
        exact ⟨r, List.mem_cons_of_mem a hr, hkey⟩

theorem upsertPrice_bound (rec : PriceRec) (seen : List PriceRec) :
    ∀ acc : List PriceRec,
      acc.Pairwise (fun a b => recKey a ≠ recKey b) →
      (∀ r ∈ acc, ∀ r' ∈ seen, recKey r' = recKey r → recPriceInt r' ≤ recPriceInt r) →
      ((∀ r0 ∈ acc, recKey r0 ≠ recKey rec) → ∀ r' ∈ seen, recKey r' ≠ recKey rec) →
      ∀ r ∈ upsertPrice acc rec, ∀ r' ∈ seen ++ [rec],
        recKey r' = recKey r → recPriceInt r' ≤ recPriceInt r := by
  intro acc
  induction acc with
  | nil =>
    intro _ _ h2v r hr r' hr' hkey
    have hr2 : r = rec := by simpa [upsertPrice] using hr
    rcases List.mem_append.mp hr' with h | h
    · rw [hr2] at hkey
      exact absurd hkey (h2v (fun r0 h0 => absurd h0 (List.not_mem_nil r0)) r' h)
    · have hre : r' = rec := by simpa using h
      rw [hr2, hre]
  | cons a as ih =>
    intro hpw h1 h2v r hr r' hr' hkey
    rw [List.pairwise_cons] at hpw
    obtain ⟨hane, haspw⟩ := hpw
    rw [upsertPrice] at hr
    by_cases hk : recKey a = recKey rec
    · rw [if_pos hk] at hr
      by_cases hpp : recPriceInt rec > recPriceInt a
      · rw [if_pos hpp] at hr
        rcases List.mem_cons.mp hr with hr | hr
        · rcases List.mem_append.mp hr' with h | h
          · have hle := h1 a (List.mem_cons_self a as) r' h
              (by rw [hkey, hr]; exact hk.symm)
            rw [hr]
            omega
          · have hre : r' = rec := by simpa using h
            rw [hre, hr]
        · rcases List.mem_append.mp hr' with h | h
          · exact h1 r (List.mem_cons_of_mem a hr) r' h hkey
          · have hre : r' = rec := by simpa using h
            rw [hre] at hkey
            exact absurd (hk.trans hkey) (hane r hr)
      · rw [if_neg hpp] at hr
        rcases List.mem_cons.mp hr with hr | hr
        · rcases List.mem_append.mp hr' with h | h
          · rw [hr]
            exact h1 a (List.mem_cons_self a as) r' h (by rw [hkey, hr])
          · have hre : r' = rec := by simpa using h
            rw [hre, hr]
            omega
        · rcases List.mem_append.mp hr' with h | h
          · exact h1 r (List.mem_cons_of_mem a hr) r' h hkey
          · have hre : r' = rec := by simpa using h
            rw [hre] at hkey
            exact absurd (hk.trans hkey) (hane r hr)
    · rw [if_neg hk] at hr
      rcases List.mem_cons.mp hr with hr | hr
      · rcases List.mem_append.mp hr' with h | h
        · rw [hr]
          exact h1 a (List.mem_cons_self a as) r' h (by rw [hkey, hr])
        · have hre : r' = rec := by simpa using h
          rw [hre, hr] at hkey
          exact absurd hkey.symm hk
      · have h1' : ∀ r0 ∈ as, ∀ r' ∈ seen, recKey r' = recKey r0 →
            recPriceInt r' ≤ recPriceInt r0 :=
          fun r0 h0 => h1 r0 (List.mem_cons_of_mem a h0)
        have h2v' : (∀ r0 ∈ as, recKey r0 ≠ recKey rec) →
            ∀ r' ∈ seen, recKey r' ≠ recKey rec := by
          intro hall
          apply h2v
          intro r0 h0
          rcases List.mem_cons.mp h0 with h0 | h0
          · rw [h0]
            exact hk
          · exact hall r0 h0
        exact ih haspw h1' h2v' r hr r' hr' hkey

theorem dedupPrice_fold_inv (rows : List PriceRec) :
    ∀ (seen acc : List PriceRec),
      acc.Pairwise (fun a b => recKey a ≠ recKey b) →
      (∀ r ∈ acc, r ∈ seen) →
      (∀ r' ∈ seen, ∃ r ∈ acc, recKey r = recKey r') →
      (∀ r ∈ acc, ∀ r' ∈ seen, recKey r' = recKey r → recPriceInt r' ≤ recPriceInt r) →
      (rows.foldl upsertPrice acc).Pairwise (fun a b => recKey a ≠ recKey b) ∧
      (∀ r ∈ rows.foldl upsertPrice acc, r ∈ seen ++ rows) ∧
      (∀ r' ∈ seen ++ rows, ∃ r ∈ rows.foldl upsertPrice acc, recKey r = recKey r') ∧
      (∀ r ∈ rows.foldl upsertPrice acc, ∀ r' ∈ seen ++ rows,
        recKey r' = recKey r → recPriceInt r' ≤ recPriceInt r) := by
  induction rows with
  | nil =>
    intro seen acc h1 h2 h3 h4
    simp only [List.foldl_nil, List.append_nil]
    exact ⟨h1, h2, h3, h4⟩
  | cons v vs ih =>
    intro seen acc h1 h2 h3 h4
    rw [List.foldl_cons]
    have happ : seen ++ v :: vs = (seen ++ [v]) ++ vs := by simp
    rw [happ]
    apply ih (seen ++ [v]) (upsertPrice acc v)
    · exact upsertPrice_pairwise v acc h1
    · intro r hr
      rcases upsertPrice_mem v acc r hr with h | h
      · exact List.mem_append.mpr (Or.inl (h2 r h))
      · rw [h]
        exact List.mem_append.mpr (Or.inr (List.mem_cons_self v []))
    · intro r' hr'
      rcases List.mem_append.mp hr' with h | h
      · obtain ⟨r₂, hr₂, hkey⟩ := h3 r' h
        obtain ⟨r, hr, hkey2⟩ := upsertPrice_key_mem v acc r₂ hr₂
        exact ⟨r, hr, hkey2.trans hkey⟩
      · have hre : r' = v := by simpa using h
        rw [hre]
        exact upsertPrice_key_self v acc
    · intro r hr r' hr' hkey
      refine upsertPrice_bound v seen acc h1 h4 ?_ r hr r' hr' hkey
      intro hall r'' hr'' hkeq
      obtain ⟨r₂, hr₂, hkey₂⟩ := h3 r'' hr''
      exact hall r₂ hr₂ (hkey₂.trans hkeq)

theorem pairwise_countP_le_one (k : String × String × String × String) :
    ∀ l : List PriceRec, l.Pairwise (fun a b => recKey a ≠ recKey b) →
      l.countP (fun r => recKey r = k) ≤ 1 := by
  intro l
  induction l with
  | nil =>
    intro _
    simp
  | cons a as ih =>
    intro hp
    rw [List.pairwise_cons] at hp
    obtain ⟨ha, has⟩ := hp
    rw [List.countP_cons]
    by_cases hk : recKey a = k
    · have hz : as.countP (fun r => decide (recKey r = k)) = 0 := by
        rw [List.countP_eq_zero]
        intro r hr
        simp only [decide_eq_true_eq]
        intro hc
        exact ha r hr (hk.trans hc.symm)
      rw [hz]
      simp [hk]
    · have hd : (decide (recKey a = k)) = false := by simp [hk]
      rw [hd]
      simp only [Bool.false_eq_true, if_false]
      have := ih has
      omega

/-- C1: after the dedup pass of `extract_price_table_from_tables`
(app.py:1105-1129), every surviving row is one of the input rows whose
digit-only price subtotal is maximal within its
`(주택형, 약식표기, 동/호별, 층구분)` key group, and exactly one row
survives per key occurring in the input. -/
theorem price_dedup_correct (rows : List PriceRec) :
    (∀ r ∈ dedupPrice rows, r ∈ rows ∧
      ∀ r' ∈ rows, recKey r' = recKey r → recPriceInt r' ≤ recPriceInt r) ∧
    (∀ k, (dedupPrice rows).countP (fun r => recKey r = k) =
      if rows.any (fun r => recKey r = k) then 1 else 0) := by
  obtain ⟨hpw, hmem, hpres, hbound⟩ :=
    dedupPrice_fold_inv rows [] [] (by simp) (by simp) (by simp) (by simp)
  rw [List.nil_append] at hmem hpres hbound
  have hdd : dedupPrice rows = rows.foldl upsertPrice [] := rfl
  constructor
  · intro r hr
    rw [hdd] at hr
    exact ⟨hmem r hr, fun r' hr' hk => hbound r hr r' hr' hk⟩
  · intro k
    rw [hdd]
    by_cases hany : rows.any (fun r => recKey r = k) = true
    · rw [if_pos hany]
      obtain ⟨r₀, hr₀, hk₀⟩ := List.any_eq_true.mp hany
      have hk₀' : recKey r₀ = k := of_decide_eq_true hk₀
      obtain ⟨r, hr, hkey⟩ := hpres r₀ hr₀
      have hpos : 0 < (rows.foldl upsertPrice []).countP (fun r => recKey r = k) := by
        rw [List.countP_pos_iff]
        exact ⟨r, hr, by simp [hkey.trans hk₀']⟩
      have hle := pairwise_countP_le_one k (rows.foldl upsertPrice []) hpw
      omega
    · rw [if_neg hany, List.countP_eq_zero]
      intro r hr
      simp only [decide_eq_true_eq]
      intro hc
      apply hany
      rw [List.any_eq_true]
      exact ⟨r, hmem r hr, by simp [hc]⟩

/-! ## C3: continuation tables and the column map -/

theorem setKey_mem (k : String) (v : Nat) :
    ∀ (m : List (String × Nat)) (kv : String × Nat),
      kv ∈ setKey m k v → kv ∈ m ∨ kv.1 = k := by
  intro m
  induction m with
  | nil =>
    intro kv h
    right
    have : kv = (k, v) := by simpa [setKey] using h
    rw [this]
  | cons p ps ih =>
    intro kv h
    rw [setKey] at h
    by_cases hk : p.1 = k
    · rw [if_pos hk] at h
      rcases List.mem_cons.mp h with h | h
      · right
        rw [h]
      · left
        exact List.mem_cons_of_mem p h
    · rw [if_neg hk] at h
      rcases List.mem_cons.mp h with h | h
      · left
        exact h ▸ List.mem_cons_self p ps
      · rcases ih kv h with h' | h'
        · left
          exact List.mem_cons_of_mem p h'
        · right
          exact h'

theorem mapLookup_cons (p : String × Nat) (ps : List (String × Nat)) (k : String) :
    mapLookup (p :: ps) k = if p.1 = k then some p.2 else mapLookup ps k := by
  simp only [mapLookup]
  by_cases h : p.1 = k
  · rw [List.find?_cons_of_pos _ (by simpa using h), if_pos h]
    rfl
  · rw [List.find?_cons_of_neg _ (by simpa using h), if_neg h]

theorem mapLookup_setKey_ne (k' : String) (v : Nat) (k : String) (hne : k' ≠ k) :
    ∀ m : List (String × Nat), mapLookup (setKey m k' v) k = mapLookup m k := by
  intro m
  induction m with
  | nil =>
    have h1 : setKey [] k' v = [(k', v)] := rfl
    rw [h1, mapLookup_cons, if_neg hne]
  | cons p ps ih =>
    rw [setKey]
    by_cases hk : p.1 = k'
    · rw [if_pos hk, mapLookup_cons, mapLookup_cons,
        if_neg hne, if_neg (fun hc : p.1 = k => hne (hk.symm.trans hc))]
    · rw [if_neg hk, mapLookup_cons, mapLookup_cons]
      by_cases hpk : p.1 = k
      · rw [if_pos hpk, if_pos hpk]
      · rw [if_neg hpk, if_neg hpk]
        exact ih

theorem mapLookup_updateMap (k : String) :
    ∀ tmp : List (String × Nat), (∀ kv ∈ tmp, kv.1 ≠ k) →
      ∀ m : List (String × Nat), mapLookup (updateMap m tmp) k = mapLookup m k := by
  intro tmp
  induction tmp with
  | nil =>
    intro _ m
    rfl
  | cons kv rest ih =>
    intro h m
    have h1 : updateMap m (kv :: rest) = updateMap (setKey m kv.1 kv.2) rest := rfl
    rw [h1, ih (fun kv' h' => h kv' (List.mem_cons_of_mem kv h')),
      mapLookup_setKey_ne kv.1 kv.2 k (h kv (List.mem_cons_self kv rest))]

theorem foldl_preserve {α β : Type} (P : β → Prop) (op : β → α → β)
    (hop : ∀ b, P b → ∀ a, P (op b a)) :
    ∀ (l : List α) (b : β), P b → P (l.foldl op b) := by
  intro l
  induction l with
  | nil =>
    intro b hb
    simpa using hb
  | cons x xs ih =>
    intro b hb
    rw [List.foldl_cons]
    exact ih _ (hop b hb x)

theorem contTmpMap_keys (tbl : List (List String)) :
    ∀ kv ∈ contTmpMap tbl,
      kv.1 = "동/호별" ∨ kv.1 = "층구분" ∨ kv.1 = "해당세대수" := by
  rw [contTmpMap]
  refine foldl_preserve
    (fun res : List (String × Nat) =>
      ∀ kv ∈ res, kv.1 = "동/호별" ∨ kv.1 = "층구분" ∨ kv.1 = "해당세대수")
    _ ?_ (List.range (tableNCols tbl)) [] ?_
  · intro acc hacc c kv hkv
    simp only at hkv
    split_ifs at hkv with h1 h2 h3
    · rcases setKey_mem _ _ acc kv hkv with h | h
      · exact hacc kv h
      · exact Or.inl h
    · rcases setKey_mem _ _ acc kv hkv with h | h
      · exact hacc kv h
      · exact Or.inr (Or.inl h)
    · rcases setKey_mem _ _ acc kv hkv with h | h
      · exact hacc kv h
      · exact Or.inr (Or.inr h)
    · exact hacc kv hkv
  · intro kv h
    cases h

/-- C3 counterexample: `headerTbl3` has 5 columns with 동/호별 mapped at
index 2; `contTbl3` is a continuation table with exactly one fewer column
(4), yet the continuation branch reuses the header's column map with *no*
index shifted (층구분 stays at 3, 해당세대수 at 4); and a table with two
fewer columns (`contTblNarrow`) is *not* skipped either. -/
theorem continuation_shift_cex :
    tableNCols headerTbl3 = 5 ∧
    headerColMap headerTbl3 = some priceColMap3 ∧
    mapLookup priceColMap3 "동/호별" = some 2 ∧
    tableNCols contTbl3 = 4 ∧
    continuationColMap priceColMap3 contTbl3 = some priceColMap3 ∧
    mapLookup priceColMap3 "층구분" = some 3 ∧
    mapLookup priceColMap3 "해당세대수" = some 4 ∧
    tableNCols contTblNarrow = 3 ∧
    (continuationColMap priceColMap3 contTblNarrow).isSome = true := by
  decide

/-- C3 (amended): a continuation table (no 주택형+약식 header signature)
is skipped only when no header table was previously accepted; no column
count is compared and no index is shifted.  The reused map keeps the
header table's 주택형 and 약식표기 indices unchanged, while 동/호별,
층구분 and 해당세대수 may be re-detected from the continuation table's
first five rows (app.py:971-998). -/
theorem continuation_no_shift (lastMap : List (String × Nat)) (tbl : List (List String))
    (h : lastMap ≠ []) :
    ∃ m, continuationColMap lastMap tbl = some m ∧
      mapLookup m "주택형" = mapLookup lastMap "주택형" ∧
      mapLookup m "약식표기" = mapLookup lastMap "약식표기" := by
  refine ⟨updateMap lastMap (contTmpMap tbl), ?_, ?_, ?_⟩
  · rw [continuationColMap, if_neg h]
  · refine mapLookup_updateMap "주택형" (contTmpMap tbl) ?_ lastMap
    intro kv hkv
    rcases contTmpMap_keys tbl kv hkv with h' | h' | h' <;> rw [h'] <;> decide
  · refine mapLookup_updateMap "약식표기" (contTmpMap tbl) ?_ lastMap
    intro kv hkv
    rcases contTmpMap_keys tbl kv hkv with h' | h' | h' <;> rw [h'] <;> decide

/-- C3 witness: the amended statement at the concrete header map and
continuation table of the counterexample. -/
theorem continuation_no_shift_witness :
    ∃ m, continuationColMap priceColMap3 contTbl3 = some m ∧
      mapLookup m "주택형" = mapLookup priceColMap3 "주택형" ∧
      mapLookup m "약식표기" = mapLookup priceColMap3 "약식표기" :=
  continuation_no_shift priceColMap3 contTbl3 (by decide)

/-! ## C10: the move-in date always comes out in canonical form -/

theorem moveInScan_formats :
    ∀ cands : List String,
      cands.any (fun s => (searchP1 s.data).isSome || (searchP2 s.data).isSome) = true →
      ∃ y m, moveInScan cands = some (fmtYM y m) := by
  intro cands
  induction cands with
  | nil =>
    intro h
    simp at h
  | cons s rest ih =>
    intro h
    cases hp1 : searchP1 s.data with
    | some ym =>
      obtain ⟨y, m⟩ := ym
      exact ⟨y, m, by simp [moveInScan, hp1]⟩
    | none =>
      cases hp2 : searchP2 s.data with
      | some ym =>
        obtain ⟨y, m⟩ := ym
        exact ⟨y, m, by simp [moveInScan, hp1, hp2]⟩
      | none =>
        have h' : rest.any
            (fun s => (searchP1 s.data).isSome || (searchP2 s.data).isSome) = true := by
          simpa [List.any_cons, hp1, hp2] using h
        obtain ⟨y, m, hm⟩ := ih h'
        exact ⟨y, m, by simp [moveInScan, hp1, hp2, hm]⟩

/-- C10: whenever any collected move-in candidate line matches the
`YYYY년 M월` pattern or the `YYYY.M` pattern, `extract_move_in_date`
returns a string of the canonical form `{year}년 {month}월` with the
groups rendered as integers (leading zeros dropped), never the raw
matched text and never the truncated fallback line. -/
theorem extract_move_in_formats (text : String)
    (h : (moveInCandidates text).any
      (fun s => (searchP1 s.data).isSome || (searchP2 s.data).isSome) = true) :
    ∃ y m, extract_move_in_date text = some (fmtYM y m) := by
  obtain ⟨y, m, hm⟩ := moveInScan_formats (moveInCandidates text) h
  exact ⟨y, m, by simp only [extract_move_in_date, hm]⟩

/-- C10 witness: the theorem at a concrete text whose candidate line holds
`2025년 03월`; the zero-padded month comes out as `3`. -/
theorem extract_move_in_formats_witness :
    ∃ y m, extract_move_in_date "입주예정일 : 2025년 03월" = some (fmtYM y m) :=
  extract_move_in_formats "입주예정일 : 2025년 03월" (by decide)
